import Mathlib

/-!
# Verification of the IconFonts inline extension (`iconfonts.py`)

Shallow embedding of the token matcher and class composer of the
IconFonts extension for Python-Markdown, together with proofs about it.

The source registers, for each configured binding `(marker, base)`, the
inline pattern `f"&{marker}{ICON_RE}"` where

    ICON_RE = (?P<name>[a-zA-Z0-9-]+)
              (:(?P<mod>[a-zA-Z0-9-]+(,[a-zA-Z0-9-]+)*)?
               (:(?P<user_mod>[a-zA-Z0-9-]+(,[a-zA-Z0-9-]+)*)?)?)?;

and `handleMatch` builds an `<i>` element whose `class` attribute is
composed from the binding's base, the marker-prefixed name, the
marker-prefixed modifier list and the verbatim user-modifier list.

Strings are modelled as `List Char`; the matcher is modelled anchored at
the start of its input (the host calls `compiled_re.match(data, index)`,
i.e. an anchored attempt at each candidate index).  Because the character
class `[a-zA-Z0-9-]` is disjoint from the delimiters `:`, `,` and `;`,
the greedy regex above backtracks in no observable way, and the anchored
match is computed by the deterministic functions below; each function is
annotated with the regex fragment it realises.
-/

/-- The character class `[a-zA-Z0-9-]` of `ICON_RE`. -/
def isIconChar (c : Char) : Bool :=
  ('a' ≤ c && c ≤ 'z') || ('A' ≤ c && c ≤ 'Z') || ('0' ≤ c && c ≤ '9') || c == '-'

/-- `joinComma rs` is the raw text captured by a comma-separated group:
the runs `rs` joined by single commas (Python: the matched substring). -/
def joinComma : List (List Char) → List Char
  | [] => []
  | [r] => r
  | r :: rs => r ++ ',' :: joinComma rs

/-- `joinSpace` models Python's `" ".join(...)`. -/
def joinSpace : List (List Char) → List Char
  | [] => []
  | [r] => r
  | r :: rs => r ++ ' ' :: joinSpace rs

/-- `splitOnComma` models Python's `str.split(",")`: empty pieces are
kept (`"".split(",") == [""]`, `"a,,b".split(",") == ["a","","b"]`). -/
def splitOnComma : List Char → List (List Char)
  | [] => [[]]
  | c :: t =>
    if c = ',' then [] :: splitOnComma t
    else
      match splitOnComma t with
      | h :: rest => (c :: h) :: rest
      | [] => [[c]]

/-- Greedy realisation of the regex fragment `(,[a-zA-Z0-9-]+)*`:
consume as many `,run` groups (with nonempty runs) as possible, and
return the runs together with the unconsumed remainder.  The `fuel`
argument only bounds the recursion; each step consumes at least two
characters, so `fuel = length of the input` never runs out. -/
def takeRunsF : Nat → List Char → List (List Char) × List Char
  | 0, s => ([], s)
  | Nat.succ n, s =>
    match s with
    | [] => ([], [])
    | c :: t =>
      if c = ',' then
        let r := t.takeWhile isIconChar
        if r.isEmpty then ([], c :: t)
        else
          let (more, rest) := takeRunsF n (t.dropWhile isIconChar)
          (r :: more, rest)
      else ([], c :: t)

/-- Greedy realisation of `(?P<g>[a-zA-Z0-9-]+(,[a-zA-Z0-9-]+)*)?`:
the optional raw captured text of a comma-separated modifier group,
plus the unconsumed remainder. -/
def takeList (s : List Char) : Option (List Char) × List Char :=
  let r := s.takeWhile isIconChar
  if r.isEmpty then (none, s)
  else
    let (more, rest) := takeRunsF s.length (s.dropWhile isIconChar)
    (some (joinComma (r :: more)), rest)

/-- The parse result of one anchored attempt of the compiled pattern:
the three named captures of `ICON_RE` and `stop = m.end(0)`
(the match is anchored, so `m.start(0) = 0`). -/
structure RawMatch where
  name : List Char
  mod : Option (List Char)
  user_mod : Option (List Char)
  stop : Nat
deriving DecidableEq, Repr

/-- Realisation of the part of `ICON_RE` after the name capture:
`(:(?P<mod>...)?(:(?P<user_mod>...)?)?)?;`.  Returns the two optional
raw captures and the remainder after the final `;`. -/
def matchAfterName (s : List Char) :
    Option (Option (List Char) × Option (List Char) × List Char) :=
  match s with
  | [] => none
  | c :: s1 =>
    if c = ';' then some (none, none, s1)
    else if c = ':' then
      match takeList s1 with
      | (mod, s2) =>
        match s2 with
        | [] => none
        | c2 :: s3 =>
          if c2 = ';' then some (mod, none, s3)
          else if c2 = ':' then
            match takeList s3 with
            | (um, s4) =>
              match s4 with
              | [] => none
              | c3 :: s5 => if c3 = ';' then some (mod, um, s5) else none
          else none
    else none

/-- Consume the literal marker text: `dropLit m s = some r` iff
`s = m ++ r`.  This realises the marker part of the compiled pattern
for markers containing no regex metacharacters. -/
def dropLit : List Char → List Char → Option (List Char)
  | [], s => some s
  | p :: ps, c :: s => if p = c then dropLit ps s else none
  | _ :: _, [] => none

/-- The part of the anchored attempt after the `&` and the marker have
been consumed: the greedy name capture `(?P<name>[a-zA-Z0-9-]+)`
followed by `matchAfterName`; `total` is the length of the whole
attempted input, so that `total - rest.length` is `m.end(0)`. -/
def matchBody (s2 : List Char) (total : Nat) : Option RawMatch :=
  if (s2.takeWhile isIconChar).isEmpty then none
  else
    match matchAfterName (s2.dropWhile isIconChar) with
    | some (mod, um, rest) =>
      some ⟨s2.takeWhile isIconChar, mod, um, total - rest.length⟩
    | none => none

/-- Anchored attempt of the compiled pattern `f"&{marker}{ICON_RE}"` at
the start of `s`, for a marker with no regex metacharacters (matched
literally).  Returns the captures and `m.end(0)`. -/
def matchToken (marker s : List Char) : Option RawMatch :=
  match s with
  | [] => none
  | c :: s1 =>
    if c = '&' then
      match dropLit marker s1 with
      | some s2 => matchBody s2 (c :: s1).length
      | none => none
    else none

/-- `handleMatch`, class-composition part: the modifier slot
`" ".join(map(lambda c: self._prefix + c, filter(None, mod.split(","))))`. -/
def modClasses (marker raw : List Char) : List Char :=
  joinSpace (((splitOnComma raw).filter (fun e => !e.isEmpty)).map
    (fun e => marker ++ e))

/-- `handleMatch`, class-composition part: the user-modifier slot
`" ".join(filter(None, user_mod.split(",")))`. -/
def userModClasses (raw : List Char) : List Char :=
  joinSpace ((splitOnComma raw).filter (fun e => !e.isEmpty))

/-- The ordered values of the `classes` dict of `handleMatch`: `base`
(when `self._base` is nonempty), then `name`, then `mod` and `user_mod`
when their captures are not `None`. -/
def classSegments (base marker : List Char) (m : RawMatch) : List (List Char) :=
  (if base.isEmpty then [] else [base]) ++
  [marker ++ m.name] ++
  (match m.mod with
   | some raw => [modClasses marker raw]
   | none => []) ++
  (match m.user_mod with
   | some raw => [userModClasses raw]
   | none => [])

/-- `" ".join(classes.values())` of `handleMatch`. -/
def composeClasses (base marker : List Char) (m : RawMatch) : List Char :=
  joinSpace (classSegments base marker m)

/-- The `<i>` element built by `handleMatch`: tag, attributes in
insertion order, and its (absent) children. -/
structure IElement where
  tag : List Char
  attrs : List (List Char × List Char)
  children : List (List Char)
deriving DecidableEq, Repr

/-- `IconFontsPattern.handleMatch` on a successful anchored match:
an `<i>` element with `class` and `aria-hidden="true"` attributes, no
children, returned with `m.start(0) = 0` and `m.end(0) = m.stop`. -/
def handleMatch (base marker : List Char) (m : RawMatch) :
    IElement × Nat × Nat :=
  (⟨"i".data,
    [("class".data, composeClasses base marker m),
     ("aria-hidden".data, "true".data)],
    []⟩, 0, m.stop)

/-!
## The marker as a regex fragment

`extendMarkdown` splices the configured marker into the pattern string
`f"&{marker}{ICON_RE}"` without escaping, so the marker is interpreted
by `re.compile` as a regex fragment, not as literal text.  `fragMatch`
models Python `re` semantics of that fragment for the subset of markers
built from literal characters and the metacharacter `.` (which matches
any single character); such a fragment consumes exactly one input
character per marker character, so no backtracking arises. -/
def fragMatch : List Char → List Char → Option (List Char)
  | [], s => some s
  | p :: ps, c :: s =>
    if p = '.' then fragMatch ps s
    else if p = c then fragMatch ps s
    else none
  | _ :: _, [] => none

/-- Characters Python `re` treats specially in a pattern; a marker
containing none of these is matched literally by the compiled pattern. -/
def isReMeta (c : Char) : Bool :=
  c = '.' || c = '^' || c = '$' || c = '*' || c = '+' || c = '?' ||
  c = '{' || c = '}' || c = '[' || c = ']' || c = '\\' || c = '|' ||
  c = '(' || c = ')'

/-- Anchored attempt of the compiled pattern `f"&{marker}{ICON_RE}"`
with the marker interpreted as a regex fragment (see `fragMatch`). -/
def matchTokenRe (marker s : List Char) : Option RawMatch :=
  match s with
  | [] => none
  | c :: s1 =>
    if c = '&' then
      match fragMatch marker s1 with
      | some s2 => matchBody s2 (c :: s1).length
      | none => none
    else none

/-!
## Registration (`IconFontsExtension.extendMarkdown`)

The extension registers one `IconFontsPattern` for the default
configuration under the name `"iconfonts"`, then one per entry of
`prefix_base_pairs` under the name `f"iconfonts_{marker.rstrip('-')}"`,
all at priority 175.  The registry itself belongs to the host library:
`markdown.util.Registry.register` deregisters any existing item bound
to the same name and then appends the new item, so a name collision
silently replaces the earlier item. -/

/-- The data of one registered `IconFontsPattern`: the marker spliced
into its pattern (and used as class prefix) and its base class. -/
structure PatternReg where
  marker : List Char
  base : List Char
deriving DecidableEq, Repr

/-- One entry of the host registry. -/
structure RegEntry where
  name : List Char
  item : PatternReg
  priority : Nat
deriving DecidableEq, Repr

/-- `markdown.util.Registry.register`: replace any entry already bound
to `name`, then append. -/
def register (reg : List RegEntry) (name : List Char) (item : PatternReg)
    (priority : Nat) : List RegEntry :=
  (reg.filter (fun e => !(e.name == name))) ++ [⟨name, item, priority⟩]

/-- Python's `str.rstrip('-')`: drop all trailing hyphens. -/
def rstripHyphen (s : List Char) : List Char :=
  (s.reverse.dropWhile (fun c => c = '-')).reverse

/-- `IconFontsExtension.extendMarkdown`: register the default pattern
under `"iconfonts"`, then each `(marker, base)` pair of
`prefix_base_pairs` (in insertion order) under
`"iconfonts_" ++ marker.rstrip('-')`, all at priority 175. -/
def extendMarkdown (marker base : List Char)
    (pairs : List (List Char × List Char)) : List RegEntry :=
  pairs.foldl
    (fun reg pb =>
      register reg ("iconfonts_".data ++ rstripHyphen pb.1) ⟨pb.1, pb.2⟩ 175)
    (register [] "iconfonts".data ⟨marker, base⟩ 175)

/-!
## Helper lemmas about the parsing functions
-/

/-- A well-formed raw capture of a comma-separated modifier group:
nonempty comma-joined runs of characters of the icon class. -/
def GoodRaw (raw : List Char) : Prop :=
  ∃ runs : List (List Char), raw = joinComma runs ∧ runs ≠ [] ∧
    ∀ r ∈ runs, r ≠ [] ∧ ∀ c ∈ r, isIconChar c = true

theorem dropLit_some : ∀ {m s r : List Char}, dropLit m s = some r ↔ s = m ++ r := by
  intro m
  induction m with
  | nil => intro s r; simp [dropLit]
  | cons p ps ih =>
    intro s r
    cases s with
    | nil => simp [dropLit]
    | cons c t =>
      by_cases hpc : p = c
      · subst hpc
        simp [dropLit, ih]
      · simp only [dropLit, hpc, if_false]
        constructor
        · intro h; exact absurd h (by simp)
        · intro h
          exact absurd (List.head_eq_of_cons_eq h).symm hpc

theorem joinComma_cons (r : List Char) (rs : List (List Char)) :
    joinComma (r :: rs) = r ++ (rs.map (fun x => ',' :: x)).flatten := by
  induction rs generalizing r with
  | nil => simp [joinComma]
  | cons r2 rs ih => simp [joinComma, ih r2]

theorem takeRunsF_append : ∀ (n : Nat) (s : List Char),
    ((takeRunsF n s).1.map (fun r => ',' :: r)).flatten ++ (takeRunsF n s).2 = s := by
  intro n
  induction n with
  | zero => intro s; simp [takeRunsF]
  | succ n ih =>
    intro s
    cases s with
    | nil => simp [takeRunsF]
    | cons c t =>
      by_cases hc : c = ','
      · subst hc
        by_cases he : (t.takeWhile isIconChar).isEmpty
        · simp [takeRunsF, he]
        · have h2 := ih (t.dropWhile isIconChar)
          cases hr : takeRunsF n (t.dropWhile isIconChar) with
          | mk more rest =>
            rw [hr] at h2
            simp only [takeRunsF, he, if_true, if_false, Bool.false_eq_true, hr]
            simp only [List.map_cons, List.flatten_cons, List.cons_append,
              List.append_assoc, List.cons.injEq, true_and]
            rw [h2]
            exact List.takeWhile_append_dropWhile isIconChar t
      · simp [takeRunsF, hc]

theorem takeRunsF_runs : ∀ (n : Nat) (s : List Char),
    ∀ r ∈ (takeRunsF n s).1, r ≠ [] ∧ ∀ c ∈ r, isIconChar c = true := by
  intro n
  induction n with
  | zero => intro s; simp [takeRunsF]
  | succ n ih =>
    intro s r hr
    cases s with
    | nil => simp [takeRunsF] at hr
    | cons c t =>
      by_cases hc : c = ','
      · subst hc
        by_cases he : (t.takeWhile isIconChar).isEmpty
        · simp [takeRunsF, he] at hr
        · cases hq : takeRunsF n (t.dropWhile isIconChar) with
          | mk more rest =>
            simp only [takeRunsF, he, if_true, if_false, Bool.false_eq_true, hq] at hr
            simp only [List.mem_cons] at hr
            rcases hr with hr | hr
            · subst hr
              refine ⟨fun hnil => ?_, fun c hc => List.mem_takeWhile_imp hc⟩
              rw [hnil] at he
              exact he rfl
            · have := ih (t.dropWhile isIconChar) r
              rw [hq] at this
              exact this hr
      · simp [takeRunsF, hc] at hr

theorem takeList_none {s rest : List Char} (h : takeList s = (none, rest)) :
    rest = s := by
  unfold takeList at h
  by_cases he : (s.takeWhile isIconChar).isEmpty
  · simp only [he, if_true] at h
    exact (Prod.mk.injEq _ _ _ _ ▸ h).2.symm
  · simp only [he, if_false, Bool.false_eq_true] at h
    exact absurd (Prod.mk.injEq _ _ _ _ ▸ h).1 (by simp)

theorem takeList_some {s raw rest : List Char} (h : takeList s = (some raw, rest)) :
    raw ++ rest = s ∧ GoodRaw raw := by
  unfold takeList at h
  by_cases he : (s.takeWhile isIconChar).isEmpty
  · simp only [he, if_true] at h
    exact absurd (Prod.mk.injEq _ _ _ _ ▸ h).1 (by simp)
  · simp only [he, if_false, Bool.false_eq_true] at h
    cases hq : takeRunsF s.length (s.dropWhile isIconChar) with
    | mk more rest2 =>
      rw [hq] at h
      have h1 := (Prod.mk.injEq _ _ _ _ ▸ h).1
      have h2 := (Prod.mk.injEq _ _ _ _ ▸ h).2
      have hraw : raw = joinComma (s.takeWhile isIconChar :: more) := by
        simpa using h1.symm
      subst h2
      constructor
      · rw [hraw, joinComma_cons]
        have hflat := takeRunsF_append s.length (s.dropWhile isIconChar)
        rw [hq] at hflat
        simp only at hflat
        rw [List.append_assoc, hflat]
        exact List.takeWhile_append_dropWhile isIconChar s
      · refine ⟨s.takeWhile isIconChar :: more, hraw, by simp, ?_⟩
        intro r hr
        rcases List.mem_cons.mp hr with hr | hr
        · subst hr
          refine ⟨fun hnil => ?_, fun c hc => List.mem_takeWhile_imp hc⟩
          rw [hnil] at he
          exact he rfl
        · have := takeRunsF_runs s.length (s.dropWhile isIconChar) r
          rw [hq] at this
          exact this hr

theorem splitOnComma_ne_nil (l : List Char) : splitOnComma l ≠ [] := by
  cases l with
  | nil => simp [splitOnComma]
  | cons c t =>
    by_cases hc : c = ','
    · simp [splitOnComma, hc]
    · simp only [splitOnComma, hc, if_false]
      cases splitOnComma t <;> simp

theorem splitOnComma_append_nocomma {a : List Char} (ha : ∀ c ∈ a, c ≠ ',')
    {rest : List Char} {h : List Char} {t : List (List Char)}
    (hrest : splitOnComma rest = h :: t) :
    splitOnComma (a ++ rest) = (a ++ h) :: t := by
  induction a with
  | nil => simpa using hrest
  | cons c a ih =>
    have hc : c ≠ ',' := ha c (by simp)
    have ha2 : ∀ x ∈ a, x ≠ ',' := fun x hx => ha x (by simp [hx])
    simp only [List.cons_append, splitOnComma, hc, if_false, List.append_eq]
    rw [ih ha2]

theorem splitOnComma_nocomma {a : List Char} (ha : ∀ c ∈ a, c ≠ ',') :
    splitOnComma a = [a] := by
  have := @splitOnComma_append_nocomma a ha [] [] [] (by simp [splitOnComma])
  simpa using this

theorem splitOnComma_joinComma {runs : List (List Char)} (hne : runs ≠ [])
    (hruns : ∀ r ∈ runs, ∀ c ∈ r, c ≠ ',') :
    splitOnComma (joinComma runs) = runs := by
  induction runs with
  | nil => exact absurd rfl hne
  | cons r rs ih =>
    cases rs with
    | nil =>
      simp only [joinComma]
      exact splitOnComma_nocomma (hruns r (by simp))
    | cons r2 rs2 =>
      have hjc : joinComma (r :: r2 :: rs2) = r ++ ',' :: joinComma (r2 :: rs2) := rfl
      rw [hjc]
      have hsub : splitOnComma (joinComma (r2 :: rs2)) = r2 :: rs2 :=
        ih (by simp) (fun x hx => hruns x (by simp [List.mem_cons] at hx ⊢; tauto))
      have hcomma : splitOnComma (',' :: joinComma (r2 :: rs2)) =
          [] :: r2 :: rs2 := by
        simp [splitOnComma, hsub]
      have := splitOnComma_append_nocomma (hruns r (by simp)) hcomma
      simpa using this

theorem joinSpace_append {l1 l2 : List (List Char)} (h1 : l1 ≠ []) (h2 : l2 ≠ []) :
    joinSpace (l1 ++ l2) = joinSpace l1 ++ ' ' :: joinSpace l2 := by
  induction l1 with
  | nil => exact absurd rfl h1
  | cons a l1 ih =>
    cases l1 with
    | nil =>
      cases l2 with
      | nil => exact absurd rfl h2
      | cons b l2 => simp [joinSpace]
    | cons a2 l12 =>
      have : joinSpace ((a :: a2 :: l12) ++ l2) =
          a ++ ' ' :: joinSpace ((a2 :: l12) ++ l2) := rfl
      rw [this, ih (by simp)]
      have hdef : joinSpace (a :: a2 :: l12) = a ++ ' ' :: joinSpace (a2 :: l12) := rfl
      rw [hdef]
      simp [List.append_assoc]

theorem getLast?_snoc_semi (l : List Char) :
    (l ++ [';']).getLast? = some ';' :=
  List.getLast?_concat l

/-- The characters that may legally appear between a token's name and
its terminating `;`: the icon character class plus the separators `:`
and `,`.  Any other character is illegal inside a token. -/
def isTailChar (c : Char) : Bool :=
  isIconChar c || c == ':' || c == ','

theorem mem_joinComma_tail : ∀ runs : List (List Char),
    (∀ r ∈ runs, ∀ c ∈ r, isIconChar c = true) →
    ∀ c ∈ joinComma runs, isTailChar c = true := by
  intro runs
  induction runs with
  | nil => intro _ c hc; simp [joinComma] at hc
  | cons r rs ih =>
    intro hr c hc
    cases rs with
    | nil =>
      simp only [joinComma] at hc
      have := hr r (by simp) c hc
      simp [isTailChar, this]
    | cons r2 rs2 =>
      have hjc : joinComma (r :: r2 :: rs2) = r ++ ',' :: joinComma (r2 :: rs2) := rfl
      rw [hjc] at hc
      rcases List.mem_append.mp hc with hc | hc
      · have := hr r (by simp) c hc
        simp [isTailChar, this]
      · rcases List.mem_cons.mp hc with hc | hc
        · subst hc; decide
        · exact ih (fun x hx => hr x (by simp [hx])) c hc

theorem goodRaw_tailChars {raw : List Char} (h : GoodRaw raw) :
    ∀ c ∈ raw, isTailChar c = true := by
  obtain ⟨runs, hraw, _, hr⟩ := h
  rw [hraw]
  exact mem_joinComma_tail runs (fun r hrr => (hr r hrr).2)

theorem matchAfterName_inv {t : List Char}
    {mod um : Option (List Char)} {rest : List Char}
    (h : matchAfterName t = some (mod, um, rest)) :
    ∃ mid : List Char, t = mid ++ rest ∧
      (∃ p, mid = p ++ [';'] ∧ ∀ c ∈ p, isTailChar c = true) ∧
      (∀ raw, mod = some raw → GoodRaw raw) ∧
      (∀ raw, um = some raw → GoodRaw raw) := by
  cases t with
  | nil => simp [matchAfterName] at h
  | cons c s1 =>
    by_cases hsemi : c = ';'
    · subst hsemi
      simp only [matchAfterName, if_true] at h
      obtain ⟨h1, h2, h3⟩ : none = mod ∧ none = um ∧ s1 = rest := by
        simpa using h
      subst h1; subst h2; subst h3
      exact ⟨[';'], rfl, ⟨[], rfl, by simp⟩, by simp, by simp⟩
    · by_cases hcolon : c = ':'
      · subst hcolon
        simp only [matchAfterName, if_false, if_true] at h
        rw [if_neg (by decide)] at h
        cases hq : takeList s1 with
        | mk modo s2 =>
          rw [hq] at h
          cases s2 with
          | nil => simp at h
          | cons c2 s3 =>
            have hmodfacts : ∀ raw, modo = some raw → GoodRaw raw := by
              intro raw hraw
              rw [hraw] at hq
              exact (takeList_some hq).2
            have hmodpre : ∃ p : List Char, s1 = p ++ (c2 :: s3) ∧
                ∀ c ∈ p, isTailChar c = true := by
              cases modo with
              | none => exact ⟨[], (takeList_none hq).symm, by simp⟩
              | some raw =>
                exact ⟨raw, (takeList_some hq).1.symm,
                  goodRaw_tailChars (takeList_some hq).2⟩
            obtain ⟨p, hp, hptail⟩ := hmodpre
            have hcolontail : isTailChar ':' = true := by decide
            by_cases hs2 : c2 = ';'
            · subst hs2
              simp only [if_true] at h
              obtain ⟨h1, h2, h3⟩ : modo = mod ∧ none = um ∧ s3 = rest := by
                simpa using h
              subst h1; subst h2; subst h3
              refine ⟨':' :: p ++ [';'], ?_, ?_, hmodfacts, by simp⟩
              · rw [hp]; simp
              · refine ⟨':' :: p, rfl, ?_⟩
                intro c hc
                rcases List.mem_cons.mp hc with hc | hc
                · subst hc; exact hcolontail
                · exact hptail c hc
            · by_cases hs2c : c2 = ':'
              · subst hs2c
                simp only [if_false, if_true] at h
                rw [if_neg (by decide)] at h
                cases hq2 : takeList s3 with
                | mk umo s4 =>
                  rw [hq2] at h
                  cases s4 with
                  | nil => simp at h
                  | cons c3 s5 =>
                    have humfacts : ∀ raw, umo = some raw → GoodRaw raw := by
                      intro raw hraw
                      rw [hraw] at hq2
                      exact (takeList_some hq2).2
                    have humpre : ∃ q : List Char, s3 = q ++ (c3 :: s5) ∧
                        ∀ c ∈ q, isTailChar c = true := by
                      cases umo with
                      | none => exact ⟨[], (takeList_none hq2).symm, by simp⟩
                      | some raw =>
                        exact ⟨raw, (takeList_some hq2).1.symm,
                          goodRaw_tailChars (takeList_some hq2).2⟩
                    obtain ⟨q, hpq, hqtail⟩ := humpre
                    by_cases hs4 : c3 = ';'
                    · subst hs4
                      simp only [if_true] at h
                      obtain ⟨h1, h2, h3⟩ : modo = mod ∧ umo = um ∧ s5 = rest := by
                        simpa using h
                      subst h1; subst h2; subst h3
                      refine ⟨':' :: p ++ ':' :: q ++ [';'], ?_, ?_,
                        hmodfacts, humfacts⟩
                      · rw [hp, hpq]; simp
                      · refine ⟨':' :: p ++ ':' :: q, by simp, ?_⟩
                        intro c hc
                        rcases List.mem_append.mp hc with hc | hc
                        · rcases List.mem_cons.mp hc with hc | hc
                          · subst hc; exact hcolontail
                          · exact hptail c hc
                        · rcases List.mem_cons.mp hc with hc | hc
                          · subst hc; exact hcolontail
                          · exact hqtail c hc
                    · simp [hs4] at h
              · simp [hs2, hs2c] at h
      · simp [matchAfterName, hsemi, hcolon] at h

theorem matchToken_inv {marker s : List Char} {m : RawMatch}
    (h : matchToken marker s = some m) :
    m.name ≠ [] ∧ (∀ c ∈ m.name, isIconChar c = true) ∧
    (∀ raw, m.mod = some raw → GoodRaw raw) ∧
    (∀ raw, m.user_mod = some raw → GoodRaw raw) ∧
    ∃ mid rest : List Char, s = ('&' :: (marker ++ m.name ++ mid)) ++ rest ∧
      (∃ p, mid = p ++ [';'] ∧ ∀ c ∈ p, isTailChar c = true) ∧
      m.stop = ('&' :: (marker ++ m.name ++ mid)).length := by
  cases s with
  | nil => simp [matchToken] at h
  | cons c s1 =>
    by_cases hamp : c = '&'
    · subst hamp
      simp only [matchToken, if_true] at h
      cases hd : dropLit marker s1 with
      | none => rw [hd] at h; simp at h
      | some s2 =>
        rw [hd] at h
        dsimp only at h
        have hs1 : s1 = marker ++ s2 := dropLit_some.mp hd
        unfold matchBody at h
        by_cases hne : (s2.takeWhile isIconChar).isEmpty
        · rw [if_pos hne] at h; simp at h
        · rw [if_neg hne] at h
          cases hma : matchAfterName (s2.dropWhile isIconChar) with
          | none => rw [hma] at h; simp at h
          | some v =>
            obtain ⟨mod, um, rest⟩ := v
            rw [hma] at h
            simp only at h
            have hm : m = ⟨s2.takeWhile isIconChar, mod, um,
                ('&' :: s1).length - rest.length⟩ := by
              cases h; rfl
            obtain ⟨mid, hmid, hlast, hmodf, humf⟩ := matchAfterName_inv hma
            have hs2eq : s2 = s2.takeWhile isIconChar ++ (mid ++ rest) := by
              calc s2 = s2.takeWhile isIconChar ++ s2.dropWhile isIconChar :=
                    (List.takeWhile_append_dropWhile isIconChar s2).symm
                _ = s2.takeWhile isIconChar ++ (mid ++ rest) := by rw [hmid]
            subst hm
            dsimp only
            generalize hg : s2.takeWhile isIconChar = nm at hs2eq hne ⊢
            refine ⟨?_, ?_, hmodf, humf, mid, rest, ?_, hlast, ?_⟩
            · intro hnil
              rw [hnil] at hne
              exact hne rfl
            · intro c2 hc2
              rw [← hg] at hc2
              exact List.mem_takeWhile_imp hc2
            · rw [hs1, hs2eq]
              simp [List.append_assoc]
            · rw [hs1, hs2eq]
              simp only [List.length_cons, List.length_append]
              omega
    · simp [matchToken, hamp] at h

theorem goodRaw_split {raw : List Char} (h : GoodRaw raw) :
    splitOnComma raw ≠ [] ∧
    (∀ e ∈ splitOnComma raw, e ≠ [] ∧ ∀ c ∈ e, isIconChar c = true) ∧
    (splitOnComma raw).filter (fun e => !e.isEmpty) = splitOnComma raw := by
  obtain ⟨runs, hraw, hne, hr⟩ := h
  have hcf : ∀ r ∈ runs, ∀ c ∈ r, c ≠ ',' := by
    intro r hrr c hc heq
    have := (hr r hrr).2 c hc
    rw [heq] at this
    exact absurd this (by decide)
  have hsplit : splitOnComma raw = runs := by
    rw [hraw]
    exact splitOnComma_joinComma hne hcf
  refine ⟨by rw [hsplit]; exact hne, by rw [hsplit]; exact hr, ?_⟩
  rw [hsplit, List.filter_eq_self]
  intro r hrr
  simp only [Bool.not_eq_true']
  rw [← Bool.not_eq_true, List.isEmpty_iff]
  exact (hr r hrr).1

theorem joinSpace_single (r : List Char) : joinSpace [r] = r := rfl

theorem joinSpace_flat (xs ys zs : List (List Char)) (hy : ys ≠ []) :
    joinSpace (xs ++ [joinSpace ys] ++ zs) = joinSpace (xs ++ (ys ++ zs)) := by
  cases xs with
  | cons x xs2 =>
    have h1 : (x :: xs2) ≠ [] := by simp
    have h2 : [joinSpace ys] ++ zs ≠ [] := by simp
    have h3 : ys ++ zs ≠ [] := by simp [hy]
    rw [List.append_assoc, joinSpace_append h1 h2, joinSpace_append h1 h3]
    congr 2
    cases zs with
    | nil => simp [joinSpace_single]
    | cons z zs2 =>
      rw [joinSpace_append (by simp) (by simp), joinSpace_append hy (by simp),
        joinSpace_single]
  | nil =>
    simp only [List.nil_append]
    cases zs with
    | nil => simp [joinSpace_single]
    | cons z zs2 =>
      rw [joinSpace_append (by simp) (by simp), joinSpace_append hy (by simp),
        joinSpace_single]

/-- The entries of the prefixed-modifier slot, one class per entry. -/
def modEntries (marker : List Char) (o : Option (List Char)) : List (List Char) :=
  match o with
  | some raw => ((splitOnComma raw).filter (fun e => !e.isEmpty)).map
      (fun e => marker ++ e)
  | none => []

/-- The entries of the user-modifier slot, one class per entry. -/
def userModEntries (o : Option (List Char)) : List (List Char) :=
  match o with
  | some raw => (splitOnComma raw).filter (fun e => !e.isEmpty)
  | none => []

theorem composeClasses_flatten {base marker : List Char} {m : RawMatch}
    (hmod : ∀ raw, m.mod = some raw → GoodRaw raw)
    (hum : ∀ raw, m.user_mod = some raw → GoodRaw raw) :
    composeClasses base marker m = joinSpace (
      (if base.isEmpty then [] else [base]) ++
      [marker ++ m.name] ++
      modEntries marker m.mod ++ userModEntries m.user_mod) := by
  unfold composeClasses classSegments
  cases hmo : m.mod with
  | none =>
    cases humo : m.user_mod with
    | none => rfl
    | some uraw =>
      have hgu := hum uraw humo
      obtain ⟨hune, _, hufilt⟩ := goodRaw_split hgu
      have hU : userModEntries (some uraw) ≠ [] := by
        simp only [userModEntries, hufilt]
        exact hune
      have := joinSpace_flat
        ((if base.isEmpty then [] else [base]) ++ [marker ++ m.name])
        (userModEntries (some uraw)) [] hU
      simp only [List.append_nil] at this ⊢
      simp only [userModEntries, modEntries, List.append_nil, userModClasses]
      simpa only [userModEntries] using this
  | some raw =>
    have hgm := hmod raw hmo
    obtain ⟨hmne, _, hmfilt⟩ := goodRaw_split hgm
    have hM : modEntries marker (some raw) ≠ [] := by
      simp only [modEntries, hmfilt]
      simp only [ne_eq, List.map_eq_nil_iff]
      exact hmne
    cases humo : m.user_mod with
    | none =>
      have := joinSpace_flat
        ((if base.isEmpty then [] else [base]) ++ [marker ++ m.name])
        (modEntries marker (some raw)) [] hM
      simp only [List.append_nil] at this ⊢
      simp only [modEntries, userModEntries, List.append_nil, modClasses]
      simpa only [modEntries] using this
    | some uraw =>
      have hgu := hum uraw humo
      obtain ⟨hune, _, hufilt⟩ := goodRaw_split hgu
      have hU : userModEntries (some uraw) ≠ [] := by
        simp only [userModEntries, hufilt]
        exact hune
      have h1 := joinSpace_flat
        ((if base.isEmpty then [] else [base]) ++ [marker ++ m.name] ++
          [modClasses marker raw])
        (userModEntries (some uraw)) [] hU
      have h2 := joinSpace_flat
        ((if base.isEmpty then [] else [base]) ++ [marker ++ m.name])
        (modEntries marker (some raw))
        (userModEntries (some uraw)) hM
      simp only [List.append_nil] at h1
      simp only [modEntries, userModEntries, modClasses, userModClasses] at h1 h2 ⊢
      simp only [List.append_assoc] at h1 h2 ⊢
      rw [h1, h2]

/-!
## Whitespace and delimiter facts about the composed class string
-/

/-- No two consecutive characters of `l` are both spaces. -/
def NoTwoSpaces (l : List Char) : Prop :=
  l.Chain' (fun a b => a ≠ ' ' ∨ b ≠ ' ')

/-- A well-behaved segment of a space-join: nonempty, with no space at
either end and no two consecutive spaces inside. -/
def GoodSeg (l : List Char) : Prop :=
  l ≠ [] ∧ l.head? ≠ some ' ' ∧ l.getLast? ≠ some ' ' ∧ NoTwoSpaces l

theorem mem_of_getLast_eq {l : List Char} {a : Char}
    (h : l.getLast? = some a) : a ∈ l := by
  induction l with
  | nil => simp at h
  | cons b t ih =>
    cases t with
    | nil =>
      simp only [List.getLast?_singleton, Option.some.injEq] at h
      simp [h]
    | cons c t2 =>
      rw [List.getLast?_cons_cons] at h
      exact List.mem_cons_of_mem _ (ih h)

theorem spaceFree_noTwoSpaces {l : List Char} (hsp : ' ' ∉ l) : NoTwoSpaces l := by
  induction l with
  | nil => exact List.chain'_nil
  | cons a t ih =>
    rw [NoTwoSpaces, List.chain'_cons']
    refine ⟨fun y _ => Or.inl (fun h => hsp (by simp [h])), ?_⟩
    exact ih (fun h => hsp (List.mem_cons_of_mem _ h))

theorem spaceFree_goodSeg {l : List Char} (hsp : ' ' ∉ l) (hne : l ≠ []) :
    GoodSeg l := by
  refine ⟨hne, ?_, ?_, spaceFree_noTwoSpaces hsp⟩
  · intro h
    exact hsp (List.mem_of_mem_head? (by rw [h]; simp))
  · intro h
    exact hsp (mem_of_getLast_eq h)

theorem joinSpace_goodSeg : ∀ {l : List (List Char)},
    (∀ seg ∈ l, GoodSeg seg) → l ≠ [] → GoodSeg (joinSpace l) := by
  intro l
  induction l with
  | nil => intro _ h; exact absurd rfl h
  | cons a t ih =>
    intro hsegs _
    cases t with
    | nil => exact hsegs a (by simp)
    | cons b t2 =>
      have ha : GoodSeg a := hsegs a (by simp)
      have hrest : GoodSeg (joinSpace (b :: t2)) :=
        ih (fun seg hs => hsegs seg (by simp [List.mem_cons] at hs ⊢; tauto)) (by simp)
      have hdef : joinSpace (a :: b :: t2) = a ++ ' ' :: joinSpace (b :: t2) := rfl
      rw [GoodSeg, hdef]
      obtain ⟨hane, hahd, halast, hach⟩ := ha
      obtain ⟨hrne, hrhd, hrlast, hrch⟩ := hrest
      refine ⟨by simp [hane], ?_, ?_, ?_⟩
      · rw [List.head?_append_of_ne_nil a hane]
        exact hahd
      · rw [@List.getLast?_append_of_ne_nil _ a (' ' :: joinSpace (b :: t2)) (by simp)]
        cases hj : joinSpace (b :: t2) with
        | nil => exact absurd hj hrne
        | cons x xs =>
          rw [List.getLast?_cons_cons]
          rw [hj] at hrlast
          exact hrlast
      · rw [NoTwoSpaces, List.chain'_append]
        refine ⟨hach, ?_, ?_⟩
        · rw [List.chain'_cons']
          refine ⟨?_, hrch⟩
          intro y hy
          right
          intro hy2
          rw [hy2] at hy
          exact hrhd hy
        · intro x hx y hy
          left
          intro hx2
          rw [hx2] at hx
          exact halast hx

theorem mem_joinSpace : ∀ {l : List (List Char)} {c : Char},
    c ∈ joinSpace l → c = ' ' ∨ ∃ seg ∈ l, c ∈ seg := by
  intro l
  induction l with
  | nil => intro c h; simp [joinSpace] at h
  | cons a t ih =>
    intro c h
    cases t with
    | nil =>
      right
      exact ⟨a, by simp, h⟩
    | cons b t2 =>
      have hdef : joinSpace (a :: b :: t2) = a ++ ' ' :: joinSpace (b :: t2) := rfl
      rw [hdef] at h
      rcases List.mem_append.mp h with h | h
      · exact Or.inr ⟨a, by simp, h⟩
      · rcases List.mem_cons.mp h with h | h
        · exact Or.inl h
        · rcases ih h with h | ⟨seg, hs, hc⟩
          · exact Or.inl h
          · exact Or.inr ⟨seg, by simp [List.mem_cons] at hs ⊢; tauto, hc⟩

theorem takeWhile_append_stop {p : Char → Bool} (a r : List Char) {d : Char}
    (ha : ∀ c ∈ a, p c = true) (hd : p d = false) :
    (a ++ d :: r).takeWhile p = a ∧
    (a ++ d :: r).dropWhile p = d :: r := by
  induction a with
  | nil =>
    constructor
    · simp [List.takeWhile_cons, hd]
    · simp [List.dropWhile_cons, hd]
  | cons c a ih =>
    have hc : p c = true := ha c (by simp)
    have ha2 : ∀ x ∈ a, p x = true := fun x hx => ha x (by simp [hx])
    obtain ⟨ih1, ih2⟩ := ih ha2
    constructor
    · simp only [List.cons_append, List.takeWhile_cons, hc, if_true, ih1]
    · simp only [List.cons_append, List.dropWhile_cons, hc, if_true, ih2]

theorem takeWhile_icon_semi (a r : List Char)
    (ha : ∀ c ∈ a, isIconChar c = true) :
    (a ++ ';' :: r).takeWhile isIconChar = a ∧
    (a ++ ';' :: r).dropWhile isIconChar = ';' :: r :=
  takeWhile_append_stop a r ha (by decide)

/-!
## The claims
-/

/-- C1: for every matched token the composer builds the class string in
the fixed slot order — base when nonempty, marker-prefixed name,
marker-prefixed modifier entries (raw block split on commas, empty
entries dropped), then verbatim user-modifier entries — all space-joined;
in particular input `&icon-spinner:large,spin:red;` under the default
binding yields class string `icon-spinner icon-large icon-spin red`. -/
theorem claim_C1_compose_slot_order :
    (∀ (base marker s : List Char) (m : RawMatch), matchToken marker s = some m →
      composeClasses base marker m = joinSpace (
        (if base.isEmpty then [] else [base]) ++
        [marker ++ m.name] ++
        modEntries marker m.mod ++ userModEntries m.user_mod)) ∧
    (matchToken "icon-".data "&icon-spinner:large,spin:red;".data =
      some ⟨"spinner".data, some "large,spin".data, some "red".data, 29⟩ ∧
     composeClasses [] "icon-".data
       ⟨"spinner".data, some "large,spin".data, some "red".data, 29⟩ =
       "icon-spinner icon-large icon-spin red".data) := by
  refine ⟨?_, by decide, by decide⟩
  intro base marker s m h
  obtain ⟨_, _, hmod, hum, _⟩ := matchToken_inv h
  exact composeClasses_flatten hmod hum

theorem claim_C1_witness :
    composeClasses "fa".data "fa-".data
      ⟨"x".data, some "2x,spin".data, none, 14⟩ = joinSpace (
        (if ("fa".data : List Char).isEmpty then [] else ["fa".data]) ++
        ["fa-".data ++ "x".data] ++
        modEntries "fa-".data (some "2x,spin".data) ++
        userModEntries none) :=
  claim_C1_compose_slot_order.1 "fa".data "fa-".data "&fa-x:2x,spin;".data
    ⟨"x".data, some "2x,spin".data, none, 14⟩ (by decide)

/-- C2 counterexample: the modifier block `mod1,,mod2` does not match at
all — the grammar requires nonempty entries between commas — so no class
string is produced for this input. -/
theorem claim_C2_counterexample :
    matchToken "icon-".data "&icon-name:mod1,,mod2;".data = none := by decide

/-- C2 (amended): an input whose modifier block contains a
comma-adjacent empty entry, such as `mod1,,mod2`, is rejected by the
matcher; consequently every modifier block the matcher does capture
splits on commas into nonempty entries only, so the composer's
empty-entry filter never has anything to drop. -/
theorem claim_C2_no_empty_entries :
    (∀ (marker s : List Char) (m : RawMatch) (raw : List Char),
      matchToken marker s = some m →
      (m.mod = some raw ∨ m.user_mod = some raw) →
      ∀ e ∈ splitOnComma raw, e ≠ []) ∧
    matchToken "icon-".data "&icon-name:mod1,,mod2;".data = none := by
  refine ⟨?_, by decide⟩
  intro marker s m raw h hor e he
  obtain ⟨_, _, hmod, hum, _⟩ := matchToken_inv h
  have hg : GoodRaw raw := by
    rcases hor with hr | hr
    · exact hmod raw hr
    · exact hum raw hr
  exact ((goodRaw_split hg).2.1 e he).1

theorem claim_C2_witness : "mod1".data ≠ ([] : List Char) :=
  claim_C2_no_empty_entries.1 "icon-".data "&icon-a:mod1,mod2;".data
    ⟨"a".data, some "mod1,mod2".data, none, 18⟩ "mod1,mod2".data
    (by decide) (Or.inl rfl) "mod1".data (by decide)

/-- C5: an unterminated token never matches: after the marker, a match
requires the terminating `;` to appear right after the (possibly empty)
run of characters legal inside a token — the icon class, `:` and `,` —
so when that run is instead followed by an illegal character or by the
end of the input (no `;` before end of input or before an illegal
character), the matcher returns no match and the text is left to the
host unchanged (silent skip, not an error); in particular neither
`&icon-a b;` (the only `;` comes after the illegal space) nor
`&icon-spinner:large,spin` (no `;` at all) matches. -/
theorem claim_C5_unterminated_no_match :
    (∀ (marker rest : List Char),
      (rest.dropWhile isTailChar).head? ≠ some ';' →
      matchToken marker ('&' :: (marker ++ rest)) = none) ∧
    matchToken "icon-".data "&icon-a b;".data = none ∧
    matchToken "icon-".data "&icon-spinner:large,spin".data = none := by
  refine ⟨?_, by decide, by decide⟩
  intro marker rest hterm
  cases hm : matchToken marker ('&' :: (marker ++ rest)) with
  | none => rfl
  | some m =>
    exfalso
    obtain ⟨hnne, hnic, _, _, mid, r2, hseq, hsemi, _⟩ := matchToken_inv hm
    obtain ⟨p, hp, hptail⟩ := hsemi
    have h3 : marker ++ rest = (marker ++ m.name ++ mid) ++ r2 := by
      have h2 := hseq
      rw [List.cons_append] at h2
      exact List.tail_eq_of_cons_eq h2
    simp only [List.append_assoc] at h3
    have h4 : rest = m.name ++ (mid ++ r2) := List.append_cancel_left h3
    have hrest : rest = (m.name ++ p) ++ ';' :: r2 := by
      rw [h4, hp]
      simp [List.append_assoc]
    have halltail : ∀ c ∈ m.name ++ p, isTailChar c = true := by
      intro c hc
      rcases List.mem_append.mp hc with hc | hc
      · have := hnic c hc
        simp [isTailChar, this]
      · exact hptail c hc
    have hdrop := (takeWhile_append_stop (m.name ++ p) r2 halltail
      (show isTailChar ';' = false by decide)).2
    rw [hrest, hdrop] at hterm
    exact hterm rfl

theorem claim_C5_witness :
    matchToken "fa-".data ('&' :: ("fa-".data ++ "x 2x;".data)) = none :=
  claim_C5_unterminated_no_match.1 "fa-".data "x 2x;".data (by decide)

/-- C6: for every nonempty name over the icon character class and absent
modifier fields, the token `&icon-NAME;` matches under the default
binding and composes to the class string `icon-NAME`. -/
theorem claim_C6_plain_name :
    ∀ name : List Char, name ≠ [] → (∀ c ∈ name, isIconChar c = true) →
      matchToken "icon-".data ('&' :: ("icon-".data ++ (name ++ [';']))) =
        some ⟨name, none, none, name.length + 7⟩ ∧
      composeClasses [] "icon-".data ⟨name, none, none, name.length + 7⟩ =
        "icon-".data ++ name := by
  intro name hne hchars
  have hdrop : dropLit "icon-".data ("icon-".data ++ (name ++ [';'])) =
      some (name ++ [';']) := dropLit_some.mpr rfl
  obtain ⟨htw, hdw⟩ := takeWhile_icon_semi name [] hchars
  constructor
  · simp only [matchToken, if_pos rfl, hdrop]
    unfold matchBody
    rw [htw, hdw]
    have hcond : ¬(name.isEmpty = true) := by simp [List.isEmpty_iff, hne]
    rw [if_neg hcond]
    have hma : matchAfterName [';'] = some (none, none, []) := by decide
    rw [hma]
    have h5 : ("icon-".data : List Char).length = 5 := rfl
    simp only [Option.some.injEq, RawMatch.mk.injEq, List.length_cons,
      List.length_append, List.length_nil, h5, eq_self_iff_true, ite_true,
      and_true, true_and]
    omega
  · rfl

theorem claim_C6_witness :
    matchToken "icon-".data ('&' :: ("icon-".data ++ ("html5".data ++ [';']))) =
      some ⟨"html5".data, none, none, "html5".data.length + 7⟩ ∧
    composeClasses [] "icon-".data
      ⟨"html5".data, none, none, "html5".data.length + 7⟩ =
      "icon-".data ++ "html5".data :=
  claim_C6_plain_name "html5".data (by decide) (by decide)

/-- C8: a binding with an empty marker still requires the terminating
semicolon: `&html5;` matches and composes to class string `html5`, while
`&html5` without the semicolon does not match. -/
theorem claim_C8_empty_marker :
    matchToken [] "&html5;".data = some ⟨"html5".data, none, none, 7⟩ ∧
    composeClasses [] [] ⟨"html5".data, none, none, 7⟩ = "html5".data ∧
    matchToken [] "&html5".data = none := by decide

/-- C3 counterexample: markers are spliced into the pattern without
escaping, so a marker containing the regex metacharacter `.` matches
any character in that position: under marker `a.b` the input `&aXbic;`
is recognized even though the literal marker text `a.b` does not occur
after the `&`. -/
theorem claim_C3_counterexample :
    matchTokenRe ['a', '.', 'b'] "&aXbic;".data =
      some ⟨"ic".data, none, none, 7⟩ ∧
    matchToken ['a', '.', 'b'] "&aXbic;".data = none ∧
    dropLit ['a', '.', 'b'] "aXbic;".data = none := by decide

theorem fragMatch_no_meta {marker : List Char}
    (h : ∀ c ∈ marker, isReMeta c = false) :
    ∀ s : List Char, fragMatch marker s = dropLit marker s := by
  induction marker with
  | nil => intro s; rfl
  | cons p ps ih =>
    intro s
    have hp : p ≠ '.' := by
      intro hdot
      have := h p (by simp)
      rw [hdot] at this
      exact absurd this (by decide)
    have hps : ∀ c ∈ ps, isReMeta c = false := fun c hc => h c (by simp [hc])
    cases s with
    | nil => rfl
    | cons c t =>
      simp only [fragMatch, dropLit, if_neg hp, ih hps]

/-- C3 (amended): the configured marker is spliced into the compiled
pattern unescaped and therefore interpreted as a regex fragment; for
markers containing no regex metacharacters this coincides with literal
character-for-character matching, and every literal-marker match indeed
has the marker text immediately after the `&`. -/
theorem claim_C3_unescaped_marker :
    (∀ marker s : List Char, (∀ c ∈ marker, isReMeta c = false) →
      matchTokenRe marker s = matchToken marker s) ∧
    (∀ (marker s : List Char) (m : RawMatch), matchToken marker s = some m →
      ∃ r, s = '&' :: (marker ++ r)) := by
  constructor
  · intro marker s h
    cases s with
    | nil => rfl
    | cons c s1 =>
      simp only [matchTokenRe, matchToken, fragMatch_no_meta h s1]
  · intro marker s m h
    obtain ⟨_, _, _, _, mid, rest, hseq, _, _⟩ := matchToken_inv h
    exact ⟨m.name ++ mid ++ rest, by rw [hseq]; simp [List.append_assoc]⟩

theorem claim_C3_witness :
    matchTokenRe "fa-".data "&fa-x;".data = matchToken "fa-".data "&fa-x;".data ∧
    ∃ r, "&fa-x;".data = '&' :: ("fa-".data ++ r) :=
  ⟨claim_C3_unescaped_marker.1 "fa-".data "&fa-x;".data (by decide),
   claim_C3_unescaped_marker.2 "fa-".data "&fa-x;".data
     ⟨"x".data, none, none, 6⟩ (by decide)⟩

/-- C7 counterexample: the invariant does not hold for every binding:
a binding whose base class itself contains the delimiter `&` (the host
never validates it) propagates it verbatim into the composed class
string of a matched token. -/
theorem claim_C7_counterexample :
    matchToken "icon-".data "&icon-a;".data = some ⟨"a".data, none, none, 8⟩ ∧
    '&' ∈ composeClasses "x&y".data "icon-".data ⟨"a".data, none, none, 8⟩ := by
  decide

/-- C7 (amended): for every matched token and every binding whose base
and marker contain no token delimiter and no space character — true of
all documented bindings — the composed class string contains neither
`&` nor `;`, has no two consecutive spaces, and lists its segments in
the fixed left-to-right slot order. -/
theorem claim_C7_clean_binding_invariant :
    ∀ (base marker s : List Char) (m : RawMatch),
      (∀ c ∈ base, c ≠ '&' ∧ c ≠ ';' ∧ c ≠ ' ') →
      (∀ c ∈ marker, c ≠ '&' ∧ c ≠ ';' ∧ c ≠ ' ') →
      matchToken marker s = some m →
      ('&' ∉ composeClasses base marker m) ∧
      (';' ∉ composeClasses base marker m) ∧
      NoTwoSpaces (composeClasses base marker m) ∧
      composeClasses base marker m = joinSpace (
        (if base.isEmpty then [] else [base]) ++ [marker ++ m.name] ++
        modEntries marker m.mod ++ userModEntries m.user_mod) := by
  intro base marker s m hbase hmarker h
  obtain ⟨hnne, hnic, hmod, hum, _⟩ := matchToken_inv h
  have hicon_clean : ∀ c : Char, isIconChar c = true →
      c ≠ '&' ∧ c ≠ ';' ∧ c ≠ ' ' := by
    intro c hc
    refine ⟨?_, ?_, ?_⟩ <;>
      · intro he
        rw [he] at hc
        exact absurd hc (by decide)
  have hflat := @composeClasses_flatten base marker m hmod hum
  set F := (if base.isEmpty then [] else [base]) ++ [marker ++ m.name] ++
    modEntries marker m.mod ++ userModEntries m.user_mod with hF
  have hsegs : ∀ seg ∈ F, seg ≠ [] ∧
      ∀ c ∈ seg, c ≠ '&' ∧ c ≠ ';' ∧ c ≠ ' ' := by
    intro seg hseg
    rw [hF] at hseg
    simp only [List.append_assoc, List.mem_append] at hseg
    rcases hseg with hseg | hseg | hseg | hseg
    · have hb : ¬base.isEmpty ∧ seg = base := by
        by_cases hbe : base.isEmpty
        · rw [if_pos hbe] at hseg; simp at hseg
        · rw [if_neg hbe] at hseg
          simp at hseg
          exact ⟨hbe, hseg⟩
      obtain ⟨hbe, rfl⟩ := hb
      exact ⟨fun hnil => hbe (by rw [hnil]; rfl), hbase⟩
    · have : seg = marker ++ m.name := by simpa using hseg
      subst this
      refine ⟨by simp [hnne], ?_⟩
      intro c hc
      rcases List.mem_append.mp hc with hc | hc
      · exact hmarker c hc
      · exact hicon_clean c (hnic c hc)
    · cases hmo : m.mod with
      | none => rw [hmo] at hseg; simp [modEntries] at hseg
      | some raw =>
        rw [hmo] at hseg
        simp only [modEntries, List.mem_map] at hseg
        obtain ⟨e, he, rfl⟩ := hseg
        have he2 : e ∈ splitOnComma raw := List.mem_of_mem_filter he
        obtain ⟨hene, heic⟩ := (goodRaw_split (hmod raw hmo)).2.1 e he2
        refine ⟨by simp [hene], ?_⟩
        intro c hc
        rcases List.mem_append.mp hc with hc | hc
        · exact hmarker c hc
        · exact hicon_clean c (heic c hc)
    · cases humo : m.user_mod with
      | none => rw [humo] at hseg; simp [userModEntries] at hseg
      | some raw =>
        rw [humo] at hseg
        simp only [userModEntries] at hseg
        have he2 : seg ∈ splitOnComma raw := List.mem_of_mem_filter hseg
        obtain ⟨hene, heic⟩ := (goodRaw_split (hum raw humo)).2.1 seg he2
        exact ⟨hene, fun c hc => hicon_clean c (heic c hc)⟩
  have hFne : F ≠ [] := by
    rw [hF]
    simp
  have hmemF : ∀ c, c ∈ composeClasses base marker m →
      c = ' ' ∨ ∃ seg ∈ F, c ∈ seg := by
    intro c hc
    rw [hflat] at hc
    exact mem_joinSpace hc
  refine ⟨?_, ?_, ?_, hflat⟩
  · intro hc
    rcases hmemF '&' hc with hsp | ⟨seg, hseg, hcs⟩
    · exact absurd hsp (by decide)
    · exact ((hsegs seg hseg).2 '&' hcs).1 rfl
  · intro hc
    rcases hmemF ';' hc with hsp | ⟨seg, hseg, hcs⟩
    · exact absurd hsp (by decide)
    · exact ((hsegs seg hseg).2 ';' hcs).2.1 rfl
  · rw [hflat]
    have hgood : ∀ seg ∈ F, GoodSeg seg := by
      intro seg hseg
      obtain ⟨hne2, hcl⟩ := hsegs seg hseg
      exact spaceFree_goodSeg (fun hsp => (hcl ' ' hsp).2.2 rfl) hne2
    exact (joinSpace_goodSeg hgood hFne).2.2.2

theorem claim_C7_witness :
    ('&' ∉ composeClasses "fa".data "fa-".data
       ⟨"x".data, some "2x".data, some "red".data, 13⟩) ∧
    (';' ∉ composeClasses "fa".data "fa-".data
       ⟨"x".data, some "2x".data, some "red".data, 13⟩) ∧
    NoTwoSpaces (composeClasses "fa".data "fa-".data
       ⟨"x".data, some "2x".data, some "red".data, 13⟩) ∧
    composeClasses "fa".data "fa-".data
       ⟨"x".data, some "2x".data, some "red".data, 13⟩ = joinSpace (
      (if ("fa".data : List Char).isEmpty then [] else ["fa".data]) ++
      ["fa-".data ++ "x".data] ++
      modEntries "fa-".data (some "2x".data) ++
      userModEntries (some "red".data)) :=
  claim_C7_clean_binding_invariant "fa".data "fa-".data "&fa-x:2x:red;".data
    ⟨"x".data, some "2x".data, some "red".data, 13⟩
    (by decide) (by decide) (by decide)

/-- C9: for every matched token the emitted element is an `<i>` node
with exactly two attributes — `class` and `aria-hidden` fixed to the
string `true` — and no child content, returned together with the span
`[0, m.end(0))` of the full matched text, which lies inside the input
and ends at the terminating semicolon. -/
theorem claim_C9_element_shape :
    ∀ (base marker s : List Char) (m : RawMatch),
      matchToken marker s = some m →
      handleMatch base marker m =
        (⟨"i".data,
          [("class".data, composeClasses base marker m),
           ("aria-hidden".data, "true".data)], []⟩, 0, m.stop) ∧
      (handleMatch base marker m).1.attrs.length = 2 ∧
      0 < m.stop ∧ m.stop ≤ s.length ∧
      (s.take m.stop).getLast? = some ';' := by
  intro base marker s m h
  obtain ⟨_, _, _, _, mid, rest, hseq, hsemi, hstop⟩ := matchToken_inv h
  obtain ⟨p, hp, _⟩ := hsemi
  have hmidne : mid ≠ [] := by
    rw [hp]
    simp
  have htake : s.take m.stop = '&' :: (marker ++ m.name ++ mid) := by
    rw [hseq, hstop]
    exact List.take_left _ _
  refine ⟨rfl, rfl, ?_, ?_, ?_⟩
  · rw [hstop]
    simp
  · rw [hseq, hstop]
    simp
  · rw [htake]
    have : ('&' :: (marker ++ m.name ++ mid)) =
        ('&' :: (marker ++ m.name)) ++ mid := by simp
    rw [this, List.getLast?_append_of_ne_nil _ hmidne, hp]
    exact getLast?_snoc_semi p

theorem claim_C9_witness :
    handleMatch "fa".data "fa-".data ⟨"x".data, some "2x".data, none, 9⟩ =
      (⟨"i".data,
        [("class".data, composeClasses "fa".data "fa-".data
           ⟨"x".data, some "2x".data, none, 9⟩),
         ("aria-hidden".data, "true".data)], []⟩, 0, 9) ∧
    (handleMatch "fa".data "fa-".data
      ⟨"x".data, some "2x".data, none, 9⟩).1.attrs.length = 2 ∧
    0 < 9 ∧ 9 ≤ ("&fa-x:2x;!".data : List Char).length ∧
    (("&fa-x:2x;!".data : List Char).take 9).getLast? = some ';' := by
  have := claim_C9_element_shape "fa".data "fa-".data "&fa-x:2x;!".data
    ⟨"x".data, some "2x".data, none, 9⟩ (by decide)
  exact this

theorem default_name_ne_pair_name (x : List Char) :
    "iconfonts".data ≠ "iconfonts_".data ++ x := by
  intro h
  have hlen := congrArg List.length h
  have h9 : ("iconfonts".data : List Char).length = 9 := rfl
  have h10 : ("iconfonts_".data : List Char).length = 10 := rfl
  rw [h9, List.length_append, h10] at hlen
  omega

theorem register_filter_other (reg : List RegEntry) (nm : List Char)
    (it : PatternReg) (pr : Nat) (q : List Char) (hne : q ≠ nm) :
    (register reg nm it pr).filter (fun e => e.name == q) =
    reg.filter (fun e => e.name == q) := by
  unfold register
  rw [List.filter_append, List.filter_filter]
  have hq : (nm == q) = false := by
    rw [beq_eq_false_iff_ne]
    intro hq
    exact hne hq.symm
  have h1 : List.filter (fun e : RegEntry => e.name == q) [⟨nm, it, pr⟩] = [] := by
    rw [List.filter_cons]
    simp [hq]
  rw [h1, List.append_nil]
  apply List.filter_congr
  intro e _
  by_cases he : e.name = q
  · subst he
    simp [beq_iff_eq, hne]
  · simp [beq_iff_eq, he]

theorem extend_fold_filter_default (pairs : List (List Char × List Char)) :
    ∀ reg : List RegEntry,
      (pairs.foldl (fun r pb =>
        register r ("iconfonts_".data ++ rstripHyphen pb.1) ⟨pb.1, pb.2⟩ 175)
        reg).filter (fun e => e.name == "iconfonts".data) =
      reg.filter (fun e => e.name == "iconfonts".data) := by
  induction pairs with
  | nil => intro reg; rfl
  | cons pb pairs ih =>
    intro reg
    rw [List.foldl_cons, ih, register_filter_other]
    exact default_name_ne_pair_name (rstripHyphen pb.1)

theorem register_length_le (reg : List RegEntry) (nm : List Char)
    (it : PatternReg) (pr : Nat) :
    (register reg nm it pr).length ≤ reg.length + 1 := by
  unfold register
  rw [List.length_append]
  have := List.length_filter_le (fun e : RegEntry => !(e.name == nm)) reg
  simp only [List.length_cons, List.length_nil]
  omega

theorem extend_fold_length (pairs : List (List Char × List Char)) :
    ∀ reg : List RegEntry,
      (pairs.foldl (fun r pb =>
        register r ("iconfonts_".data ++ rstripHyphen pb.1) ⟨pb.1, pb.2⟩ 175)
        reg).length ≤ reg.length + pairs.length := by
  induction pairs with
  | nil => intro reg; simp
  | cons pb pairs ih =>
    intro reg
    rw [List.foldl_cons]
    have h1 := ih (register reg ("iconfonts_".data ++ rstripHyphen pb.1)
      ⟨pb.1, pb.2⟩ 175)
    have h2 := register_length_le reg ("iconfonts_".data ++ rstripHyphen pb.1)
      ⟨pb.1, pb.2⟩ 175
    simp only [List.length_cons] at h1 h2 ⊢
    omega

/-- C4 counterexample: a marker colliding exactly with the default
registered marker raises no configuration error: setup completes and
both patterns, with the very same marker, end up active in the registry
side by side. -/
theorem claim_C4_counterexample :
    extendMarkdown "icon-".data [] [("icon-".data, "b".data)] =
      [⟨"iconfonts".data, ⟨"icon-".data, []⟩, 175⟩,
       ⟨"iconfonts_icon".data, ⟨"icon-".data, "b".data⟩, 175⟩] := by decide

/-- C4 (amended): registration performs no validation and can not fail:
for every configuration — including marker collisions — setup completes,
the default binding stays registered under the name `iconfonts`
untouched by any pair, and at most one registry entry is added per pair
(colliding derived names silently replace earlier entries rather than
raising an error). -/
theorem claim_C4_no_setup_error :
    ∀ (marker base : List Char) (pairs : List (List Char × List Char)),
      (extendMarkdown marker base pairs).filter
        (fun e => e.name == "iconfonts".data) =
        [⟨"iconfonts".data, ⟨marker, base⟩, 175⟩] ∧
      (extendMarkdown marker base pairs).length ≤ 1 + pairs.length := by
  intro marker base pairs
  constructor
  · unfold extendMarkdown
    rw [extend_fold_filter_default]
    rfl
  · unfold extendMarkdown
    have h := extend_fold_length pairs (register [] "iconfonts".data ⟨marker, base⟩ 175)
    have h1 : (register [] "iconfonts".data ⟨marker, base⟩ 175).length = 1 := rfl
    rw [h1] at h
    omega

theorem claim_C4_witness :
    (extendMarkdown "icon-".data [] [("icon-".data, "b".data)]).filter
      (fun e => e.name == "iconfonts".data) =
      [⟨"iconfonts".data, ⟨"icon-".data, []⟩, 175⟩] ∧
    (extendMarkdown "icon-".data [] [("icon-".data, "b".data)]).length ≤ 2 :=
  claim_C4_no_setup_error "icon-".data [] [("icon-".data, "b".data)]

/-- C10: two entries of `prefix_base_pairs` whose markers differ only in
trailing hyphens derive the same registration name
`iconfonts_{marker.rstrip('-')}`, so the later-registered binding
silently replaces the earlier one: afterwards exactly one entry carries
that name and it holds the second pair's binding. -/
theorem claim_C10_trailing_hyphen_collision :
    ∀ (dm db p1 b1 p2 b2 : List Char),
      rstripHyphen p1 = rstripHyphen p2 →
      (extendMarkdown dm db [(p1, b1), (p2, b2)]).filter
        (fun e => e.name == "iconfonts_".data ++ rstripHyphen p1) =
        [⟨"iconfonts_".data ++ rstripHyphen p2, ⟨p2, b2⟩, 175⟩] := by
  intro dm db p1 b1 p2 b2 h
  have hstep : extendMarkdown dm db [(p1, b1), (p2, b2)] =
      register (register (register [] "iconfonts".data ⟨dm, db⟩ 175)
        ("iconfonts_".data ++ rstripHyphen p1) ⟨p1, b1⟩ 175)
        ("iconfonts_".data ++ rstripHyphen p2) ⟨p2, b2⟩ 175 := rfl
  rw [hstep, ← h]
  have hd : (("iconfonts".data : List Char) ==
      "iconfonts_".data ++ rstripHyphen p1) = false := by
    rw [beq_eq_false_iff_ne]
    exact default_name_ne_pair_name (rstripHyphen p1)
  have hself : (("iconfonts_".data ++ rstripHyphen p1 : List Char) ==
      "iconfonts_".data ++ rstripHyphen p1) = true := by
    rw [beq_iff_eq]
  simp [register, List.filter_cons, List.filter_nil, List.filter_append,
    hd, hself]

theorem claim_C10_witness :
    (extendMarkdown "icon-".data [] [("fa-".data, "fa".data),
        ("fa".data, "x".data)]).filter
      (fun e => e.name == "iconfonts_".data ++ rstripHyphen "fa-".data) =
      [⟨"iconfonts_".data ++ rstripHyphen "fa".data, ⟨"fa".data, "x".data⟩, 175⟩] :=
  claim_C10_trailing_hyphen_collision "icon-".data [] "fa-".data "fa".data
    "fa".data "x".data (by decide)
